import Mathlib

/-!
Shallow embedding of the decision-fusion and risk-sizing core of the
manifold-mikhailtal-bot repository (src/ensemble.py, src/risk_manager.py),
with theorems settling the frozen claims about it.

Numbers are modelled as rationals (the Python code uses floats); Python's
ZeroDivisionError is modelled by an `Except.error ()` result; Python's
`round(x, 2)` (round-half-to-even on the scaled value) is modelled by
`round2`.
-/

namespace ManifoldBot

/-- Direction of a signal: the Python code uses the strings 'YES' and 'NO'. -/
inductive Direction
  | YES
  | NO
deriving DecidableEq, Repr

/-- Modelled from the spec: `strategies/base_strategy.py` (class
`StrategySignal`) is not present in the source tree; the fields follow spec
section 3 and the keyword-constructor calls in `ensemble.py` and the strategy
modules (`probability`, `confidence`, `direction`, `strength`, `reasoning`).
The free-text `reasoning` field is diagnostic only (spec: "no behavioral
effect") and is not modelled. -/
structure StrategySignal where
  probability : ℚ
  confidence : ℚ
  direction : Direction
  strength : ℚ
deriving DecidableEq, Repr

/-- Round-half-to-even to the nearest integer: the rounding rule of Python's
built-in `round`. -/
def roundHalfEven (q : ℚ) : ℤ :=
  if Int.fract q < 1/2 then ⌊q⌋
  else if 1/2 < Int.fract q then ⌊q⌋ + 1
  else if Even ⌊q⌋ then ⌊q⌋ else ⌊q⌋ + 1

/-- Python's `round(x, 2)`: round to two decimal places, half to even. -/
def round2 (q : ℚ) : ℚ :=
  (roundHalfEven (100 * q) : ℚ) / 100

/-- State of `RiskManager` (src/risk_manager.py): the five constructor
parameters plus `open_positions`.  Of a position dict the sizing code only
reads `pos.get('amount', 0)`, so a position is modelled by its amount. -/
structure RiskManager where
  max_bet_amount : ℚ
  min_bet_amount : ℚ
  kelly_fraction : ℚ
  max_portfolio_risk : ℚ
  risk_tolerance : ℚ
  open_positions : List ℚ
deriving DecidableEq, Repr

/-- `RiskManager._get_current_risk`: sum of the open position amounts. -/
def get_current_risk (rm : RiskManager) : ℚ :=
  rm.open_positions.sum

/-- `RiskManager._check_portfolio_risk`: whether `current_risk + new_bet`
stays within `max_portfolio_risk * balance`. -/
def check_portfolio_risk (rm : RiskManager) (newBet balance : ℚ) : Bool :=
  get_current_risk rm + newBet ≤ rm.max_portfolio_risk * balance

/-- The clamp step of `calculate_bet_size`:
`bet_size = max(min_bet, min(max_bet, confidence_adjusted_bet))`. -/
def clampBet (rm : RiskManager) (x : ℚ) : ℚ :=
  max rm.min_bet_amount (min rm.max_bet_amount x)

/-- The tail of `calculate_bet_size` after the confidence-adjusted bet has
been computed: clamp to `[min_bet, max_bet]`, shrink to fit the portfolio
ceiling when `_check_portfolio_risk` fails, reject below `min_bet`, and
round the final amount to two decimals. -/
def applyLimits (rm : RiskManager) (confAdjusted balance : ℚ) : Option ℚ :=
  let clamped := clampBet rm confAdjusted
  let betSize :=
    if check_portfolio_risk rm clamped balance then clamped
    else min clamped (rm.max_portfolio_risk * balance - get_current_risk rm)
  if betSize < rm.min_bet_amount then none else some (round2 betSize)

/-- The local `edge` of `calculate_bet_size` step 1, as a function of the
signal direction, the signal probability and the market probability. -/
def edgeOf : Direction → ℚ → ℚ → ℚ
  | .YES, prob, p => prob - p
  | .NO, prob, p => p - prob

/-- The local `win_prob` of `calculate_bet_size` step 1. -/
def winProbOf : Direction → ℚ → ℚ
  | .YES, prob => prob
  | .NO, prob => 1 - prob

/-- The local `win_odds` (payout ratio) of `calculate_bet_size` step 1.
For YES it is `(1 - market_prob) / market_prob`, for NO it is
`market_prob / (1 - market_prob)`. -/
def winOddsOf : Direction → ℚ → ℚ
  | .YES, p => (1 - p) / p
  | .NO, p => p / (1 - p)

/-- The denominator of the payout-odds division of `calculate_bet_size`
step 1: Python raises ZeroDivisionError exactly when it is zero. -/
def oddsDenom : Direction → ℚ → ℚ
  | .YES, p => p
  | .NO, p => 1 - p

/-- The full Kelly fraction `(win_prob * win_odds - lose_prob) / win_odds`
computed by `calculate_bet_size` (note `lose_prob = 1 - win_prob` in both
direction branches of the source). -/
def kellyFullOf (dir : Direction) (prob p : ℚ) : ℚ :=
  (winProbOf dir prob * winOddsOf dir p - (1 - winProbOf dir prob)) / winOddsOf dir p

/-- `calculate_bet_size` from the minimum-edge check on: reject when
`edge < 0.05`, raise (model: `.error ()`) when the Kelly division divides
by a zero `win_odds`, reject when the full Kelly fraction is `<= 0`, then
scale by the fractional-Kelly multiplier, the balance and the signal
confidence and apply the limit steps. -/
def betAfterOdds (rm : RiskManager) (confidence edge winProb winOdds balance : ℚ) :
    Except Unit (Option ℚ) :=
  if edge < 1/20 then .ok none
  else if winOdds = 0 then .error ()
  else if (winProb * winOdds - (1 - winProb)) / winOdds ≤ 0 then .ok none
  else
    .ok (applyLimits rm
      ((winProb * winOdds - (1 - winProb)) / winOdds * rm.kelly_fraction * balance * confidence)
      balance)

/-- `RiskManager.calculate_bet_size` (src/risk_manager.py).  `marketProb` is
`market.get('probability', 0.5)`.  An `.error ()` result models Python's
ZeroDivisionError, raised when the payout-odds denominator is zero
(direction YES divides by `market_prob`, direction NO by `1 - market_prob`)
or, later, when `win_odds` is zero in the Kelly division. -/
def calculate_bet_size (rm : RiskManager) (signal : StrategySignal)
    (marketProb balance : ℚ) : Except Unit (Option ℚ) :=
  if oddsDenom signal.direction marketProb = 0 then .error ()
  else
    betAfterOdds rm signal.confidence
      (edgeOf signal.direction signal.probability marketProb)
      (winProbOf signal.direction signal.probability)
      (winOddsOf signal.direction marketProb)
      balance

/-- Sum of the values of a weight map (Python: `sum(weights.values())`). -/
def sumWeights (w : List (String × ℚ)) : ℚ :=
  (w.map Prod.snd).sum

/-- `weights.get(name, 0)`. -/
def weightOf (w : List (String × ℚ)) (name : String) : ℚ :=
  (w.lookup name).getD 0

/-- `StrategyEnsemble._normalize_weights`: divide every weight by the total,
but only when the total is positive; otherwise the map is left unchanged. -/
def normalize_weights (w : List (String × ℚ)) : List (String × ℚ) :=
  let total := sumWeights w
  if 0 < total then w.map (fun q => (q.1, q.2 / total)) else w

/-- State of `StrategyEnsemble` (src/ensemble.py): the registered strategy
names and the weight dict.  The `enabled` flags and the strategy objects
themselves play no role in the fused arithmetic. -/
structure StrategyEnsemble where
  strategies : List String
  weights : List (String × ℚ)
deriving DecidableEq, Repr

/-- `StrategyEnsemble.__init__`: `weights or {name: 1.0/len(strategies)}`
followed by `_normalize_weights` (an empty dict is falsy in Python, hence the
emptiness test on the supplied map).  The Python constructor raises on an
empty strategy list with no supplied weights (`1.0/0`); the claims never
exercise that corner and it is not modelled. -/
def mkEnsemble (names : List String) (w : Option (List (String × ℚ))) :
    StrategyEnsemble :=
  let w0 :=
    match w with
    | some m => if m = [] then names.map (fun n => (n, 1 / (names.length : ℚ))) else m
    | none => names.map (fun n => (n, 1 / (names.length : ℚ)))
  ⟨names, normalize_weights w0⟩

/-- Accumulator of the signal-combination loop in
`StrategyEnsemble._combine_signals`. -/
structure CombineAcc where
  totalWeight : ℚ
  weightedProb : ℚ
  weightedConfidence : ℚ
  yesVotes : ℚ
  noVotes : ℚ
deriving DecidableEq, Repr

/-- One iteration of the loop of `_combine_signals`: the effective weight is
`weights.get(name, 0) * signal.confidence`, and it is added to the YES or to
the NO vote mass according to the signal direction. -/
def combineStep (w : List (String × ℚ)) (acc : CombineAcc)
    (entry : String × StrategySignal) : CombineAcc :=
  let weight := weightOf w entry.1 * entry.2.confidence
  { totalWeight := acc.totalWeight + weight
    weightedProb := acc.weightedProb + entry.2.probability * weight
    weightedConfidence := acc.weightedConfidence + entry.2.confidence * weight
    yesVotes := acc.yesVotes + (if entry.2.direction = .YES then weight else 0)
    noVotes := acc.noVotes + (if entry.2.direction = .YES then 0 else weight) }

/-- `StrategyEnsemble._combine_signals` (the spec's `fuse`): `None` on an
empty mapping or a zero total weight, otherwise the consensus signal with the
weighted probability and confidence, weight-mass-voted direction ('YES' iff
`yes_votes > no_votes`) and agreement strength `|yes - no| / total`. -/
def combine_signals (e : StrategyEnsemble) (signals : List (String × StrategySignal)) :
    Option StrategySignal :=
  if signals = [] then none
  else
    let acc := signals.foldl (combineStep e.weights) ⟨0, 0, 0, 0, 0⟩
    if acc.totalWeight = 0 then none
    else
      some
        { probability := acc.weightedProb / acc.totalWeight
          confidence := acc.weightedConfidence / acc.totalWeight
          direction := if acc.noVotes < acc.yesVotes then .YES else .NO
          strength := |acc.yesVotes - acc.noVotes| / acc.totalWeight }

/-- One estimator's entry in the performance mapping handed to
`update_weights`: `win_rate`, `total_return`, `total_trades`. -/
structure PerfRecord where
  win_rate : ℚ
  total_return : ℚ
  total_trades : ℕ
deriving DecidableEq, Repr

/-- The score `update_weights` assigns to one performance record:
`max(0.1, 0.6 * win_rate + 0.4 * total_return / total_trades)` when there is
trade history, the neutral default `0.5` otherwise. -/
def scoreVal (p : PerfRecord) : ℚ :=
  if 0 < p.total_trades then
    max (1/10) (p.win_rate * (6/10) + (p.total_return / (p.total_trades : ℚ)) * (4/10))
  else 1/2

/-- The `scores` dict built by `update_weights`: one entry per performance
record whose name is a registered strategy. -/
def scoresOf (e : StrategyEnsemble) (perf : List (String × PerfRecord)) :
    List (String × ℚ) :=
  perf.filterMap (fun q => if q.1 ∈ e.strategies then some (q.1, scoreVal q.2) else none)

/-- Sum of the scores (`total_score` in the source). -/
def totalScore (e : StrategyEnsemble) (perf : List (String × PerfRecord)) : ℚ :=
  ((scoresOf e perf).map Prod.snd).sum

/-- `StrategyEnsemble.update_weights` (the spec's `reweight`): when the score
dict is non-empty and its total positive, the weight map is replaced by the
normalized scores; otherwise it is left unchanged. -/
def update_weights (e : StrategyEnsemble) (perf : List (String × PerfRecord)) :
    StrategyEnsemble :=
  let scores := scoresOf e perf
  if scores = [] then e
  else if 0 < totalScore e perf then
    { e with weights := scores.map (fun q => (q.1, q.2 / totalScore e perf)) }
  else e

/-- The claim-side total effective weight: the sum, over the input signals, of
`configured_weight * confidence`, written as a plain sum rather than through
the source's loop accumulator. -/
def specTotalWeight (w : List (String × ℚ)) (signals : List (String × StrategySignal)) : ℚ :=
  (signals.map (fun entry => weightOf w entry.1 * entry.2.confidence)).sum

/-- The claim-side weighted probability mass `Σ probability * effective_weight`. -/
def specProbMass (w : List (String × ℚ)) (signals : List (String × StrategySignal)) : ℚ :=
  (signals.map (fun entry => entry.2.probability * (weightOf w entry.1 * entry.2.confidence))).sum

/-- The claim-side weighted confidence mass `Σ confidence * effective_weight`. -/
def specConfMass (w : List (String × ℚ)) (signals : List (String × StrategySignal)) : ℚ :=
  (signals.map (fun entry => entry.2.confidence * (weightOf w entry.1 * entry.2.confidence))).sum

/-- The claim-side YES vote mass: summed effective weight of YES signals. -/
def specYesMass (w : List (String × ℚ)) (signals : List (String × StrategySignal)) : ℚ :=
  (signals.map (fun entry =>
    if entry.2.direction = .YES then weightOf w entry.1 * entry.2.confidence else 0)).sum

/-- The claim-side NO vote mass: summed effective weight of NO signals. -/
def specNoMass (w : List (String × ℚ)) (signals : List (String × StrategySignal)) : ℚ :=
  (signals.map (fun entry =>
    if entry.2.direction = .YES then 0 else weightOf w entry.1 * entry.2.confidence)).sum

/-- The default `RiskManager` configuration of the source
(`max_bet=100`, `min_bet=10`, `kelly_fraction=0.25`,
`max_portfolio_risk=0.30`, `risk_tolerance=0.25`), with no open positions. -/
def rmDefault : RiskManager :=
  { max_bet_amount := 100
    min_bet_amount := 10
    kelly_fraction := 1/4
    max_portfolio_risk := 3/10
    risk_tolerance := 1/4
    open_positions := [] }

/-- The post-clamp, post-shrink bet value inside `applyLimits`, before the
final floor check and rounding. -/
def limitVal (rm : RiskManager) (confAdjusted balance : ℚ) : ℚ :=
  if check_portfolio_risk rm (clampBet rm confAdjusted) balance then clampBet rm confAdjusted
  else min (clampBet rm confAdjusted) (rm.max_portfolio_risk * balance - get_current_risk rm)

lemma applyLimits_eq (rm : RiskManager) (x bal : ℚ) :
    applyLimits rm x bal =
      if limitVal rm x bal < rm.min_bet_amount then none
      else some (round2 (limitVal rm x bal)) := rfl

lemma roundHalfEven_intCast (n : ℤ) : roundHalfEven (n : ℚ) = n := by
  unfold roundHalfEven
  rw [Int.fract_intCast, Int.floor_intCast]
  norm_num

lemma roundHalfEven_le_floor_add_one (q : ℚ) : roundHalfEven q ≤ ⌊q⌋ + 1 := by
  unfold roundHalfEven
  split_ifs <;> omega

lemma floor_le_roundHalfEven (q : ℚ) : ⌊q⌋ ≤ roundHalfEven q := by
  unfold roundHalfEven
  split_ifs <;> omega

lemma roundHalfEven_mono {q1 q2 : ℚ} (h : q1 ≤ q2) :
    roundHalfEven q1 ≤ roundHalfEven q2 := by
  have hf : ⌊q1⌋ ≤ ⌊q2⌋ := Int.floor_le_floor h
  rcases lt_or_eq_of_le hf with hlt | heq
  · calc roundHalfEven q1 ≤ ⌊q1⌋ + 1 := roundHalfEven_le_floor_add_one q1
    _ ≤ ⌊q2⌋ := by omega
    _ ≤ roundHalfEven q2 := floor_le_roundHalfEven q2
  · have hfr : Int.fract q1 ≤ Int.fract q2 := by
      unfold Int.fract
      rw [heq] at *
      linarith
    unfold roundHalfEven
    rw [heq]
    split_ifs <;> first | omega | linarith

lemma round2_mono {q1 q2 : ℚ} (h : q1 ≤ q2) : round2 q1 ≤ round2 q2 := by
  unfold round2
  have h : roundHalfEven (100 * q1) ≤ roundHalfEven (100 * q2) :=
    roundHalfEven_mono (by linarith)
  have h' : ((roundHalfEven (100 * q1) : ℚ)) ≤ (roundHalfEven (100 * q2) : ℚ) := by
    exact_mod_cast h
  linarith

lemma round2_hundredth (m : ℤ) : round2 ((m : ℚ) / 100) = (m : ℚ) / 100 := by
  unfold round2
  have h : (100 : ℚ) * ((m : ℚ) / 100) = (m : ℚ) := by ring
  rw [h, roundHalfEven_intCast]

lemma hundredth_le_round2 {m : ℤ} {q : ℚ} (h : (m : ℚ) / 100 ≤ q) :
    (m : ℚ) / 100 ≤ round2 q := by
  calc (m : ℚ) / 100 = round2 ((m : ℚ) / 100) := (round2_hundredth m).symm
  _ ≤ round2 q := round2_mono h

lemma round2_le_hundredth {m : ℤ} {q : ℚ} (h : q ≤ (m : ℚ) / 100) :
    round2 q ≤ (m : ℚ) / 100 := by
  calc round2 q ≤ round2 ((m : ℚ) / 100) := round2_mono h
  _ = (m : ℚ) / 100 := round2_hundredth m

lemma clampBet_mono (rm : RiskManager) {x1 x2 : ℚ} (h : x1 ≤ x2) :
    clampBet rm x1 ≤ clampBet rm x2 :=
  max_le_max le_rfl (min_le_min le_rfl h)

lemma min_bet_le_clampBet (rm : RiskManager) (x : ℚ) :
    rm.min_bet_amount ≤ clampBet rm x :=
  le_max_left _ _

lemma clampBet_le_max_bet (rm : RiskManager) (x : ℚ)
    (h : rm.min_bet_amount ≤ rm.max_bet_amount) :
    clampBet rm x ≤ rm.max_bet_amount :=
  max_le h (min_le_left _ _)

lemma limitVal_mono (rm : RiskManager) (bal : ℚ) {x1 x2 : ℚ} (h : x1 ≤ x2) :
    limitVal rm x1 bal ≤ limitVal rm x2 bal := by
  have hc : clampBet rm x1 ≤ clampBet rm x2 := clampBet_mono rm h
  unfold limitVal check_portfolio_risk
  split_ifs with h1 h2 h2
  · exact hc
  · simp only [decide_eq_true_eq] at h1
    exact le_min hc (by linarith)
  · exact le_trans (min_le_left _ _) hc
  · exact min_le_min hc le_rfl

lemma limitVal_le_clampBet (rm : RiskManager) (x bal : ℚ) :
    limitVal rm x bal ≤ clampBet rm x := by
  unfold limitVal
  split_ifs
  · exact le_rfl
  · exact min_le_left _ _

lemma applyLimits_monotone (rm : RiskManager) (bal : ℚ) {x1 x2 : ℚ} (h : x1 ≤ x2) :
    (applyLimits rm x2 bal = none → applyLimits rm x1 bal = none) ∧
    (∀ a1 a2, applyLimits rm x1 bal = some a1 → applyLimits rm x2 bal = some a2 →
      a1 ≤ a2) := by
  have hv : limitVal rm x1 bal ≤ limitVal rm x2 bal := limitVal_mono rm bal h
  rw [applyLimits_eq, applyLimits_eq]
  constructor
  · intro h2
    by_cases hb2 : limitVal rm x2 bal < rm.min_bet_amount
    · rw [if_pos (lt_of_le_of_lt hv hb2)]
    · rw [if_neg hb2] at h2
      exact absurd h2 (by simp)
  · intro a1 a2 ha1 ha2
    by_cases hb1 : limitVal rm x1 bal < rm.min_bet_amount
    · rw [if_pos hb1] at ha1
      exact absurd ha1 (by simp)
    · rw [if_neg hb1] at ha1
      by_cases hb2 : limitVal rm x2 bal < rm.min_bet_amount
      · rw [if_pos hb2] at ha2
        exact absurd ha2 (by simp)
      · rw [if_neg hb2] at ha2
        obtain rfl : a1 = round2 (limitVal rm x1 bal) := (Option.some.inj ha1).symm
        obtain rfl : a2 = round2 (limitVal rm x2 bal) := (Option.some.inj ha2).symm
        exact round2_mono hv

lemma foldl_combineStep (w : List (String × ℚ)) (l : List (String × StrategySignal))
    (acc : CombineAcc) :
    l.foldl (combineStep w) acc =
      ⟨acc.totalWeight + specTotalWeight w l,
       acc.weightedProb + specProbMass w l,
       acc.weightedConfidence + specConfMass w l,
       acc.yesVotes + specYesMass w l,
       acc.noVotes + specNoMass w l⟩ := by
  induction l generalizing acc with
  | nil =>
      simp [specTotalWeight, specProbMass, specConfMass, specYesMass, specNoMass]
  | cons a l ih =>
      rw [List.foldl_cons, ih]
      simp only [specTotalWeight, specProbMass, specConfMass, specYesMass, specNoMass,
        List.map_cons, List.sum_cons, combineStep]
      congr 1 <;> ring

lemma scoreVal_pos (p : PerfRecord) : 0 < scoreVal p := by
  unfold scoreVal
  split_ifs
  · exact lt_of_lt_of_le (by norm_num) (le_max_left _ _)
  · norm_num

lemma totalScore_pos (e : StrategyEnsemble) (perf : List (String × PerfRecord))
    (h : scoresOf e perf ≠ []) : 0 < totalScore e perf := by
  unfold totalScore
  apply List.sum_pos
  · intro x hx
    rcases List.mem_map.mp hx with ⟨q, hq, rfl⟩
    rcases List.mem_filterMap.mp hq with ⟨r, _, hr⟩
    split_ifs at hr
    · cases Option.some.injEq _ _ ▸ hr
      exact scoreVal_pos r.2
  · intro hm
    exact h (List.map_eq_nil_iff.mp hm)

lemma sumWeights_map_div (w : List (String × ℚ)) (t : ℚ) :
    sumWeights (w.map (fun q => (q.1, q.2 / t))) = sumWeights w / t := by
  induction w with
  | nil => simp [sumWeights]
  | cons a w ih =>
      simp only [sumWeights, List.map_cons, List.sum_cons] at ih ⊢
      rw [ih, add_div]

lemma kellyFull_eq_yes (prob p : ℚ) (hp0 : p ≠ 0) (hp1 : p ≠ 1) :
    kellyFullOf .YES prob p = (prob - p) / (1 - p) := by
  have h1 : (1:ℚ) - p ≠ 0 := sub_ne_zero.mpr (Ne.symm hp1)
  unfold kellyFullOf winProbOf winOddsOf
  field_simp
  ring

lemma kellyFull_eq_no (prob p : ℚ) (hp0 : p ≠ 0) (hp1 : p ≠ 1) :
    kellyFullOf .NO prob p = (p - prob) / p := by
  have h1 : (1:ℚ) - p ≠ 0 := sub_ne_zero.mpr (Ne.symm hp1)
  unfold kellyFullOf winProbOf winOddsOf
  field_simp
  ring

/-- C1 (amended): whenever the payout-odds division of step 1 is defined
(`market_probability ≠ 0` for direction YES, `≠ 1` for direction NO),
`calculate_bet_size` returns `None` as soon as the directional edge is below
the hardcoded minimum-edge threshold `0.05`, for every signal (in particular
regardless of its confidence), bankroll and open-position state. -/
theorem claim1_edge_reject (rm : RiskManager) (s : StrategySignal) (p bal : ℚ)
    (hden : oddsDenom s.direction p ≠ 0)
    (hedge : edgeOf s.direction s.probability p < 1/20) :
    calculate_bet_size rm s p bal = .ok none := by
  unfold calculate_bet_size
  rw [if_neg hden]
  unfold betAfterOdds
  rw [if_pos hedge]

/-- C1 counterexample: the claim quantifies over every market probability,
but at `market_probability = 0` with direction YES the code raises
ZeroDivisionError computing the payout odds before the edge check runs, so a
sub-threshold edge (0.03 < 0.05) does not yield `None` there. -/
theorem claim1_counterexample :
    edgeOf Direction.YES (3/100) 0 < 1/20 ∧
    calculate_bet_size rmDefault ⟨3/100, 1, .YES, 1⟩ 0 1000 = .error () := by
  constructor
  · norm_num [edgeOf]
  · unfold calculate_bet_size
    rw [if_pos]
    norm_num [oddsDenom]

/-- Witness for `claim1_edge_reject` at a concrete input. -/
theorem claim1_witness :
    calculate_bet_size rmDefault ⟨52/100, 1, .YES, 1⟩ (1/2) 1000 = .ok none :=
  claim1_edge_reject rmDefault ⟨52/100, 1, .YES, 1⟩ (1/2) 1000
    (by norm_num [oddsDenom]) (by norm_num [edgeOf])

/-- C9 counterexample: the claim asserts the existence of a signal and an
in-range market probability for which the edge check passes yet the full
Kelly fraction is non-positive; no such input exists, because for
`p ∈ (0,1)` the Kelly fraction equals `edge/(1-p)` (YES) or `edge/p` (NO)
and is therefore strictly positive whenever `edge ≥ 0.05`. -/
theorem claim9_counterexample :
    ¬ ∃ (s : StrategySignal) (p : ℚ), 0 < p ∧ p < 1 ∧
        1/20 ≤ edgeOf s.direction s.probability p ∧
        kellyFullOf s.direction s.probability p ≤ 0 := by
  rintro ⟨s, p, hp0, hp1, he, hk⟩
  cases hd : s.direction
  · rw [hd] at he hk
    rw [kellyFull_eq_yes s.probability p (ne_of_gt hp0) (ne_of_lt hp1)] at hk
    simp only [edgeOf] at he
    have : 0 < (s.probability - p) / (1 - p) :=
      div_pos (by linarith) (by linarith)
    linarith
  · rw [hd] at he hk
    rw [kellyFull_eq_no s.probability p (ne_of_gt hp0) (ne_of_lt hp1)] at hk
    simp only [edgeOf] at he
    have : 0 < (p - s.probability) / p :=
      div_pos (by linarith) hp0
    linarith

/-- C9 (amended): for every direction, signal probability and market
probability strictly between 0 and 1, an edge that passes the minimum-edge
check forces a strictly positive full Kelly fraction, so the Kelly-step
rejection of step 3 is unreachable after step 2 — the Kelly check is
redundant for in-range market probabilities. -/
theorem claim9_kelly_redundant (dir : Direction) (prob p : ℚ)
    (hp0 : 0 < p) (hp1 : p < 1) (he : 1/20 ≤ edgeOf dir prob p) :
    0 < kellyFullOf dir prob p := by
  cases dir
  · rw [kellyFull_eq_yes prob p (ne_of_gt hp0) (ne_of_lt hp1)]
    simp only [edgeOf] at he
    exact div_pos (by linarith) (by linarith)
  · rw [kellyFull_eq_no prob p (ne_of_gt hp0) (ne_of_lt hp1)]
    simp only [edgeOf] at he
    exact div_pos (by linarith) hp0

/-- Witness for `claim9_kelly_redundant` at a concrete input. -/
theorem claim9_witness : 0 < kellyFullOf Direction.YES (7/10) (1/2) :=
  claim9_kelly_redundant Direction.YES (7/10) (1/2)
    (by norm_num) (by norm_num) (by norm_num [edgeOf])

/-- C10: for a quoted market probability in [0,1], `calculate_bet_size` is
total (never raises the modelled ZeroDivisionError, for every configuration,
signal and bankroll) exactly when the probability is strictly between 0
and 1: direction YES divides by `market_probability` and direction NO by
`1 - market_probability`, with no guard. -/
theorem claim10_division_totality (p : ℚ) (h0 : 0 ≤ p) (h1 : p ≤ 1) :
    ((0 < p ∧ p < 1) ↔
      ∀ (rm : RiskManager) (s : StrategySignal) (bal : ℚ),
        calculate_bet_size rm s p bal ≠ .error ()) := by
  constructor
  · rintro ⟨hp0, hp1⟩ rm s bal
    have hden : oddsDenom s.direction p ≠ 0 := by
      cases s.direction
      · exact ne_of_gt hp0
      · show (1:ℚ) - p ≠ 0
        exact ne_of_gt (by linarith)
    have hodds : winOddsOf s.direction p ≠ 0 := by
      cases s.direction
      · exact div_ne_zero (ne_of_gt (by linarith)) (ne_of_gt hp0)
      · exact div_ne_zero (ne_of_gt hp0) (ne_of_gt (by linarith))
    unfold calculate_bet_size
    rw [if_neg hden]
    unfold betAfterOdds
    split_ifs with he hk
    · simp
    · simp
    · simp
  · intro hall
    constructor
    · rcases eq_or_lt_of_le h0 with he | hlt
      · exfalso
        apply hall rmDefault ⟨1, 1, .YES, 1⟩ 0
        unfold calculate_bet_size
        rw [if_pos]
        show oddsDenom Direction.YES p = 0
        simp [oddsDenom, ← he]
      · exact hlt
    · rcases eq_or_lt_of_le h1 with he | hlt
      · exfalso
        apply hall rmDefault ⟨0, 1, .NO, 1⟩ 0
        unfold calculate_bet_size
        rw [if_pos]
        show oddsDenom Direction.NO p = 0
        simp [oddsDenom, he]
      · exact hlt

/-- Witness for `claim10_division_totality` at the concrete probability 1/2. -/
theorem claim10_witness :
    (0 < (1/2 : ℚ) ∧ (1/2 : ℚ) < 1) ↔
      ∀ (rm : RiskManager) (s : StrategySignal) (bal : ℚ),
        calculate_bet_size rm s (1/2) bal ≠ .error () :=
  claim10_division_totality (1/2) (by norm_num) (by norm_num)

lemma calculate_bet_size_pass (rm : RiskManager) (prob c : ℚ) (dir : Direction)
    (str p bal : ℚ) (hden : oddsDenom dir p ≠ 0)
    (hedge : ¬ edgeOf dir prob p < 1/20) (hkelly : 0 < kellyFullOf dir prob p) :
    calculate_bet_size rm ⟨prob, c, dir, str⟩ p bal =
      .ok (applyLimits rm (kellyFullOf dir prob p * rm.kelly_fraction * bal * c) bal) := by
  have hw : winOddsOf dir p ≠ 0 := by
    intro h
    unfold kellyFullOf at hkelly
    rw [h, div_zero] at hkelly
    exact lt_irrefl 0 hkelly
  have hknot : ¬ ((winProbOf dir prob * winOddsOf dir p - (1 - winProbOf dir prob)) /
      winOddsOf dir p ≤ 0) := by
    unfold kellyFullOf at hkelly
    exact not_le.mpr hkelly
  show (if oddsDenom dir p = 0 then Except.error () else _) = _
  rw [if_neg hden]
  show betAfterOdds rm c (edgeOf dir prob p) (winProbOf dir prob) (winOddsOf dir p) bal = _
  unfold betAfterOdds
  rw [if_neg hedge, if_neg hw, if_neg hknot]
  rfl

/-- C7: holding the signal probability, direction, strength, the market
probability, the bankroll, the configuration and the open-position state
fixed, and given that the edge and Kelly checks pass (they do not depend on
confidence) and a non-negative Kelly multiplier and bankroll,
`calculate_bet_size` is monotonically non-decreasing in the signal
confidence: `None` at the larger confidence forces `None` at the smaller,
and two returned amounts are ordered like the confidences. -/
theorem claim7_confidence_monotone (rm : RiskManager) (prob : ℚ) (dir : Direction)
    (str p bal c1 c2 : ℚ)
    (hkf : 0 ≤ rm.kelly_fraction) (hbal : 0 ≤ bal)
    (hden : oddsDenom dir p ≠ 0)
    (hedge : ¬ edgeOf dir prob p < 1/20)
    (hkelly : 0 < kellyFullOf dir prob p)
    (hc : c1 ≤ c2) :
    (calculate_bet_size rm ⟨prob, c2, dir, str⟩ p bal = .ok none →
      calculate_bet_size rm ⟨prob, c1, dir, str⟩ p bal = .ok none) ∧
    (∀ a1 a2, calculate_bet_size rm ⟨prob, c1, dir, str⟩ p bal = .ok (some a1) →
      calculate_bet_size rm ⟨prob, c2, dir, str⟩ p bal = .ok (some a2) → a1 ≤ a2) := by
  have hx : kellyFullOf dir prob p * rm.kelly_fraction * bal * c1 ≤
      kellyFullOf dir prob p * rm.kelly_fraction * bal * c2 :=
    mul_le_mul_of_nonneg_left hc
      (mul_nonneg (mul_nonneg (le_of_lt hkelly) hkf) hbal)
  rw [calculate_bet_size_pass rm prob c1 dir str p bal hden hedge hkelly,
    calculate_bet_size_pass rm prob c2 dir str p bal hden hedge hkelly]
  constructor
  · intro h2
    exact congrArg Except.ok ((applyLimits_monotone rm bal hx).1 (Except.ok.inj h2))
  · intro a1 a2 ha1 ha2
    exact (applyLimits_monotone rm bal hx).2 a1 a2 (Except.ok.inj ha1) (Except.ok.inj ha2)

/-- Witness for `claim7_confidence_monotone` at a concrete input. -/
theorem claim7_witness :
    (calculate_bet_size rmDefault ⟨7/10, 4/5, .YES, 1⟩ (1/2) 1000 = .ok none →
      calculate_bet_size rmDefault ⟨7/10, 1/2, .YES, 1⟩ (1/2) 1000 = .ok none) ∧
    (∀ a1 a2, calculate_bet_size rmDefault ⟨7/10, 1/2, .YES, 1⟩ (1/2) 1000 = .ok (some a1) →
      calculate_bet_size rmDefault ⟨7/10, 4/5, .YES, 1⟩ (1/2) 1000 = .ok (some a2) →
      a1 ≤ a2) :=
  claim7_confidence_monotone rmDefault (7/10) Direction.YES 1 (1/2) 1000 (1/2) (4/5)
    (by norm_num [rmDefault]) (by norm_num) (by norm_num [oddsDenom])
    (by norm_num [edgeOf])
    (by norm_num [kellyFullOf, winProbOf, winOddsOf]) (by norm_num)

/-- C4: when the clamped bet plus the open exposure exceeds the portfolio
ceiling `max_portfolio_risk * bankroll`, `calculate_bet_size` shrinks the bet
to `max(0, ceiling - exposure)` rather than rejecting at that stage, then
returns that amount (rounded to two decimals) when it is at least `min_bet`
and `None` otherwise; in particular, with open exposure 280, bankroll 1000
and ceiling 300 the raw bet 80 of the reference scenario is shrunk to 20.0,
and with open exposure 295 the shrink target 5 is below `min_bet = 10` and
the result is `None`. -/
theorem claim4_portfolio_shrink :
    (∀ (rm : RiskManager) (x bal : ℚ), 0 < rm.min_bet_amount →
      check_portfolio_risk rm (clampBet rm x) bal = false →
      applyLimits rm x bal =
        (if rm.min_bet_amount ≤ max 0 (rm.max_portfolio_risk * bal - get_current_risk rm)
         then some (round2 (max 0 (rm.max_portfolio_risk * bal - get_current_risk rm)))
         else none)) ∧
    calculate_bet_size { rmDefault with open_positions := [280] }
        ⟨7/10, 4/5, .YES, 1⟩ (1/2) 1000 = .ok (some 20) ∧
    calculate_bet_size { rmDefault with open_positions := [295] }
        ⟨7/10, 4/5, .YES, 1⟩ (1/2) 1000 = .ok none := by
  refine ⟨?_, ?_, ?_⟩
  · intro rm x bal hmin hfail
    have hlt : rm.max_portfolio_risk * bal - get_current_risk rm < clampBet rm x := by
      have h := hfail
      unfold check_portfolio_risk at h
      rw [decide_eq_false_iff_not] at h
      linarith [not_le.mp h]
    have hval : limitVal rm x bal =
        rm.max_portfolio_risk * bal - get_current_risk rm := by
      unfold limitVal
      simp only [hfail, Bool.false_eq_true, if_false]
      exact min_eq_right (le_of_lt hlt)
    rw [applyLimits_eq, hval]
    by_cases hge : rm.min_bet_amount ≤ rm.max_portfolio_risk * bal - get_current_risk rm
    · rw [max_eq_right (le_trans (le_of_lt hmin) hge), if_neg (not_lt.mpr hge),
        if_pos hge]
    · have hlt2 := not_le.mp hge
      rw [if_pos hlt2, if_neg (not_le.mpr (max_lt hmin hlt2))]
  · norm_num [calculate_bet_size, betAfterOdds, oddsDenom, edgeOf, winProbOf, winOddsOf,
      applyLimits, clampBet, check_portfolio_risk, get_current_risk, rmDefault,
      round2, roundHalfEven, Int.fract]
  · norm_num [calculate_bet_size, betAfterOdds, oddsDenom, edgeOf, winProbOf, winOddsOf,
      applyLimits, clampBet, check_portfolio_risk, get_current_risk, rmDefault,
      round2, roundHalfEven, Int.fract]

/-- Witness for the quantified first part of `claim4_portfolio_shrink` at a
concrete input (exposure 280, bankroll 1000, pre-shrink bet 80). -/
theorem claim4_witness :
    applyLimits { rmDefault with open_positions := [280] } 80 1000 =
      (if ({ rmDefault with open_positions := [280] } : RiskManager).min_bet_amount ≤
          max 0 (({ rmDefault with open_positions := [280] } : RiskManager).max_portfolio_risk * 1000 -
            get_current_risk { rmDefault with open_positions := [280] })
       then some (round2 (max 0
         (({ rmDefault with open_positions := [280] } : RiskManager).max_portfolio_risk * 1000 -
           get_current_risk { rmDefault with open_positions := [280] })))
       else none) :=
  claim4_portfolio_shrink.1 { rmDefault with open_positions := [280] } 80 1000
    (by norm_num [rmDefault])
    (by norm_num [check_portfolio_risk, clampBet, get_current_risk, rmDefault])

lemma applyLimits_mem_bounds (rm : RiskManager) (x bal a : ℚ) (m M : ℤ)
    (hm : rm.min_bet_amount = (m : ℚ) / 100) (hM : rm.max_bet_amount = (M : ℚ) / 100)
    (hmm : rm.min_bet_amount ≤ rm.max_bet_amount)
    (h : applyLimits rm x bal = some a) :
    rm.min_bet_amount ≤ a ∧ a ≤ rm.max_bet_amount := by
  rw [applyLimits_eq] at h
  by_cases hb : limitVal rm x bal < rm.min_bet_amount
  · rw [if_pos hb] at h
    exact absurd h (by simp)
  · rw [if_neg hb] at h
    obtain rfl : a = round2 (limitVal rm x bal) := (Option.some.inj h).symm
    have hlow : rm.min_bet_amount ≤ limitVal rm x bal := not_lt.mp hb
    have hhigh : limitVal rm x bal ≤ rm.max_bet_amount :=
      le_trans (limitVal_le_clampBet rm x bal) (clampBet_le_max_bet rm x hmm)
    constructor
    · rw [hm] at hlow ⊢
      exact hundredth_le_round2 hlow
    · rw [hM] at hhigh ⊢
      exact round2_le_hundredth hhigh

/-- C5 (amended): under a configuration with `0 < min_bet ≤ max_bet` in which
both bounds are integer multiples of one cent (so the final two-decimal
rounding cannot cross them), every non-`None` amount returned by
`calculate_bet_size` lies within `[min_bet, max_bet]`, bounds inclusive. -/
theorem claim5_output_bounds (rm : RiskManager) (s : StrategySignal) (p bal a : ℚ)
    (m M : ℤ) (hm : rm.min_bet_amount = (m : ℚ) / 100)
    (hM : rm.max_bet_amount = (M : ℚ) / 100)
    (hmin : 0 < rm.min_bet_amount) (hmm : rm.min_bet_amount ≤ rm.max_bet_amount)
    (hres : calculate_bet_size rm s p bal = .ok (some a)) :
    rm.min_bet_amount ≤ a ∧ a ≤ rm.max_bet_amount := by
  unfold calculate_bet_size betAfterOdds at hres
  split_ifs at hres
  all_goals
    first
      | exact Except.noConfusion hres
      | (injection hres with h; exact Option.noConfusion h)
      | (injection hres with h; exact applyLimits_mem_bounds rm _ bal a m M hm hM hmm h)

/-- C5 counterexample: with the non-cent-aligned ceiling
`max_bet = 100.009`, the two-decimal rounding of the final step pushes the
returned amount to 100.01, strictly above `max_bet`, so the claim fails for
a general configuration with `0 < min_bet ≤ max_bet`. -/
theorem claim5_counterexample :
    calculate_bet_size { rmDefault with max_bet_amount := 100009/1000 }
        ⟨7/10, 1, .YES, 1⟩ (1/2) 2000 = .ok (some (10001/100)) ∧
    ({ rmDefault with max_bet_amount := 100009/1000 } : RiskManager).min_bet_amount > 0 ∧
    ({ rmDefault with max_bet_amount := 100009/1000 } : RiskManager).min_bet_amount ≤
      ({ rmDefault with max_bet_amount := 100009/1000 } : RiskManager).max_bet_amount ∧
    ¬ ((10001/100 : ℚ) ≤
      ({ rmDefault with max_bet_amount := 100009/1000 } : RiskManager).max_bet_amount) := by
  refine ⟨?_, by norm_num [rmDefault], by norm_num [rmDefault], by norm_num [rmDefault]⟩
  norm_num [calculate_bet_size, betAfterOdds, oddsDenom, edgeOf, winProbOf, winOddsOf,
    applyLimits, clampBet, check_portfolio_risk, get_current_risk, rmDefault,
    round2, roundHalfEven, Int.fract]

/-- Witness for `claim5_output_bounds` at the reference scenario
(bet 80 with bounds 10 and 100). -/
theorem claim5_witness :
    rmDefault.min_bet_amount ≤ 80 ∧ (80 : ℚ) ≤ rmDefault.max_bet_amount :=
  claim5_output_bounds rmDefault ⟨7/10, 4/5, .YES, 1⟩ (1/2) 1000 80 1000 10000
    (by norm_num [rmDefault]) (by norm_num [rmDefault]) (by norm_num [rmDefault])
    (by norm_num [rmDefault])
    (by norm_num [calculate_bet_size, betAfterOdds, oddsDenom, edgeOf, winProbOf,
      winOddsOf, applyLimits, clampBet, check_portfolio_risk, get_current_risk,
      rmDefault, round2, roundHalfEven, Int.fract])

/-- C3: on every non-empty signal mapping with non-zero total effective
weight, the fused consensus has the weighted-average probability and
confidence, the weight-mass-voted direction (`YES` iff the YES mass strictly
exceeds the NO mass, an exact tie resolving to `NO`) and agreement strength
`|yes_mass - no_mass| / total_weight`. -/
theorem claim3_consensus (e : StrategyEnsemble) (signals : List (String × StrategySignal))
    (hne : signals ≠ [])
    (htw : specTotalWeight e.weights signals ≠ 0) :
    combine_signals e signals = some
      { probability := specProbMass e.weights signals / specTotalWeight e.weights signals
        confidence := specConfMass e.weights signals / specTotalWeight e.weights signals
        direction :=
          if specNoMass e.weights signals < specYesMass e.weights signals
          then .YES else .NO
        strength := |specYesMass e.weights signals - specNoMass e.weights signals| /
          specTotalWeight e.weights signals } := by
  simp only [combine_signals, foldl_combineStep, zero_add]
  rw [if_neg hne, if_neg htw]

/-- Witness for `claim3_consensus` at a concrete input. -/
theorem claim3_witness :
    combine_signals ⟨["a"], [("a", 1)]⟩ [("a", ⟨3/5, 1, .YES, 1⟩)] = some
      { probability := specProbMass [("a", 1)] [("a", ⟨3/5, 1, .YES, 1⟩)] /
          specTotalWeight [("a", 1)] [("a", ⟨3/5, 1, .YES, 1⟩)]
        confidence := specConfMass [("a", 1)] [("a", ⟨3/5, 1, .YES, 1⟩)] /
          specTotalWeight [("a", 1)] [("a", ⟨3/5, 1, .YES, 1⟩)]
        direction :=
          if specNoMass [("a", 1)] [("a", ⟨3/5, 1, .YES, 1⟩)] <
              specYesMass [("a", 1)] [("a", ⟨3/5, 1, .YES, 1⟩)]
          then .YES else .NO
        strength := |specYesMass [("a", 1)] [("a", ⟨3/5, 1, .YES, 1⟩)] -
            specNoMass [("a", 1)] [("a", ⟨3/5, 1, .YES, 1⟩)]| /
          specTotalWeight [("a", 1)] [("a", ⟨3/5, 1, .YES, 1⟩)] } :=
  claim3_consensus ⟨["a"], [("a", 1)]⟩ [("a", ⟨3/5, 1, .YES, 1⟩)]
    (by simp) (by norm_num [specTotalWeight, weightOf])

/-- C8: `fuse` (`_combine_signals`) returns `None` exactly when the input
mapping is empty or the total effective weight is zero; every other input
yields a consensus signal.  In particular the empty mapping and any all-zero
confidence input (whose effective weights are all zero) map to `None`. -/
theorem claim8_fuse_none_iff (e : StrategyEnsemble)
    (signals : List (String × StrategySignal)) :
    combine_signals e signals = none ↔
      signals = [] ∨ specTotalWeight e.weights signals = 0 := by
  simp only [combine_signals, foldl_combineStep, zero_add]
  by_cases h1 : signals = []
  · simp [h1]
  · rw [if_neg h1]
    by_cases h2 : specTotalWeight e.weights signals = 0
    · simp [h1, h2]
    · simp [h1, h2]

/-- C2 counterexample: constructing the Combiner with the weight map
`{a: 0}` leaves the weights unnormalized (the source normalizes only when
the total is strictly positive), so they sum to 0, not to 1 within 1e-9. -/
theorem claim2_counterexample :
    sumWeights (mkEnsemble ["a"] (some [("a", 0)])).weights = 0 ∧
    ¬ (|sumWeights (mkEnsemble ["a"] (some [("a", 0)])).weights - 1| ≤ 1/1000000000) := by
  have h : sumWeights (mkEnsemble ["a"] (some [("a", 0)])).weights = 0 := by
    simp [mkEnsemble, normalize_weights, sumWeights]
  refine ⟨h, ?_⟩
  rw [h]
  norm_num

/-- C2 (amended): the estimator weights sum to exactly 1 after construction
whenever the supplied weight map has a strictly positive total, and after
every `update_weights` call whose performance mapping matches at least one
registered estimator; an `update_weights` call matching none leaves the
weight map unchanged (so a sum of 1 is preserved). -/
theorem claim2_weights_sum_one :
    (∀ (names : List String) (w : List (String × ℚ)), 0 < sumWeights w →
      sumWeights (mkEnsemble names (some w)).weights = 1) ∧
    (∀ (e : StrategyEnsemble) (perf : List (String × PerfRecord)),
      scoresOf e perf ≠ [] → sumWeights (update_weights e perf).weights = 1) ∧
    (∀ (e : StrategyEnsemble) (perf : List (String × PerfRecord)),
      scoresOf e perf = [] → (update_weights e perf).weights = e.weights) := by
  refine ⟨?_, ?_, ?_⟩
  · intro names w hw
    have hne : w ≠ [] := by
      intro h
      rw [h] at hw
      simp [sumWeights] at hw
    have hw0 : (mkEnsemble names (some w)).weights = normalize_weights w := by
      simp [mkEnsemble, hne]
    rw [hw0]
    simp only [normalize_weights]
    rw [if_pos hw, sumWeights_map_div]
    exact div_self (ne_of_gt hw)
  · intro e perf hne
    have hpos := totalScore_pos e perf hne
    simp only [update_weights, if_neg hne, if_pos hpos]
    rw [sumWeights_map_div]
    exact div_self (ne_of_gt hpos)
  · intro e perf h
    simp only [update_weights, if_pos h]

/-- Witness for `claim2_weights_sum_one` at a concrete input. -/
theorem claim2_witness :
    sumWeights (mkEnsemble ["a"] (some [("a", 2)])).weights = 1 :=
  claim2_weights_sum_one.1 ["a"] [("a", 2)] (by norm_num [sumWeights])

/-- C6 counterexample: an ensemble with registered estimators `a` and `b`,
both carrying weight 1/2, loses `b` from the weight map entirely after an
`update_weights` call whose performance mapping names only `a` — the claim
that no registered estimator is ever removed by the update is false. -/
theorem claim6_counterexample :
    ((⟨["a", "b"], [("a", 1/2), ("b", 1/2)]⟩ : StrategyEnsemble).weights.lookup "b"
        = some (1/2)) ∧
    (update_weights ⟨["a", "b"], [("a", 1/2), ("b", 1/2)]⟩
        [("a", ⟨1, 0, 1⟩)]).weights.lookup "b" = none := by
  constructor
  · rfl
  · norm_num [update_weights, scoresOf, totalScore, scoreVal, List.filterMap]
    decide

/-- C6 (amended): `update_weights` gives every estimator that is both named
in the performance mapping and registered the score
`0.6*win_rate + 0.4*(total_return/total_trades)` floored at 0.1 when it has
trade history and the neutral default 0.5 otherwise, normalized by the score
total (so the new weights sum to 1); but the update replaces the weight map
with exactly the named-and-registered estimators, so a registered estimator
absent from the performance mapping is removed rather than kept. -/
theorem claim6_reweight (e : StrategyEnsemble) (perf : List (String × PerfRecord)) :
    (∀ n p, (n, p) ∈ perf → n ∈ e.strategies →
      (n, scoreVal p / totalScore e perf) ∈ (update_weights e perf).weights) ∧
    (scoresOf e perf ≠ [] → sumWeights (update_weights e perf).weights = 1) ∧
    (∀ n, scoresOf e perf ≠ [] → n ∉ perf.map Prod.fst →
      ∀ v, (n, v) ∉ (update_weights e perf).weights) := by
  refine ⟨?_, ?_, ?_⟩
  · intro n p hmem hreg
    have hs : (n, scoreVal p) ∈ scoresOf e perf := by
      apply List.mem_filterMap.mpr
      exact ⟨(n, p), hmem, by simp [hreg]⟩
    have hne : scoresOf e perf ≠ [] := List.ne_nil_of_mem hs
    have hpos := totalScore_pos e perf hne
    simp only [update_weights, if_neg hne, if_pos hpos]
    exact List.mem_map.mpr ⟨(n, scoreVal p), hs, rfl⟩
  · intro hne
    have hpos := totalScore_pos e perf hne
    simp only [update_weights, if_neg hne, if_pos hpos]
    rw [sumWeights_map_div]
    exact div_self (ne_of_gt hpos)
  · intro n hne hnot v hv
    have hpos := totalScore_pos e perf hne
    simp only [update_weights, if_neg hne, if_pos hpos] at hv
    rcases List.mem_map.mp hv with ⟨q, hq, heq⟩
    rcases List.mem_filterMap.mp hq with ⟨r, hr, hrf⟩
    by_cases hreg : r.1 ∈ e.strategies
    · rw [if_pos hreg] at hrf
      apply hnot
      have h1 : q.1 = n := congrArg Prod.fst heq
      have h2 : r.1 = q.1 := (congrArg Prod.fst (Option.some.inj hrf)).symm ▸ rfl
      have : r.1 = n := by
        rw [← h1]
        exact congrArg Prod.fst (Option.some.inj hrf) ▸ rfl
      rw [← this]
      exact List.mem_map.mpr ⟨r, hr, rfl⟩
    · rw [if_neg hreg] at hrf
      exact Option.noConfusion hrf

/-- Witness for `claim6_reweight` at a concrete input. -/
theorem claim6_witness :
    ("a", scoreVal ⟨1, 0, 1⟩ /
        totalScore ⟨["a"], [("a", 1)]⟩ [("a", ⟨1, 0, 1⟩)]) ∈
      (update_weights ⟨["a"], [("a", 1)]⟩ [("a", ⟨1, 0, 1⟩)]).weights :=
  (claim6_reweight ⟨["a"], [("a", 1)]⟩ [("a", ⟨1, 0, 1⟩)]).1 "a" ⟨1, 0, 1⟩
    (by simp) (by simp)

end ManifoldBot
